import Mathlib

/-!
Shallow embedding of the predictive agent of `kolmo_core/agents/predictive_agent.py`:
the predictions store and its canonicalization sweep, the four forecast methods,
the one-step backtester, the metrics calculator, the model selector and the
per-symbol / batch drivers.  Machine doubles are modelled as rationals; the
transcendental library routines (`np.sqrt`, `np.exp`, `np.log`, the seeded
normal sampler) and the external `statsmodels` ARIMA fitter are oracle
parameters collected in an `Env` record, so that every definition stays
executable and the control flow of the source is preserved exactly.
-/

namespace Kolmo

/-- The four forecast method identifiers of the agent. -/
inductive Method where
  | naive_last
  | sma_7
  | gbm_mc
  | arima
  deriving DecidableEq, Repr

/-- A physical row of the `predictions` table
(`symbol, ts, horizon, method, yhat, yhat_lower, yhat_upper, asof_ts`). -/
structure PredictionRecord where
  symbol : String
  ts : ℚ
  horizon : Nat
  method : Method
  yhat : ℚ
  yhat_lower : ℚ
  yhat_upper : ℚ
  asof : ℚ
  deriving DecidableEq, Repr

/-- The logical key of a prediction row: `(symbol, ts, horizon, method)`. -/
def key (r : PredictionRecord) : String × ℚ × Nat × Method :=
  (r.symbol, r.ts, r.horizon, r.method)

/-- A row survives the sweep iff its `asof` is maximal among the rows of the
store that share its logical key (this is the `NOT IN (... max(asof_ts) OVER
(PARTITION BY symbol, ts, horizon, method) ...)` predicate of the SQL). -/
def keepRow (rows : List PredictionRecord) (r : PredictionRecord) : Bool :=
  rows.all (fun s => decide (key s = key r → s.asof ≤ r.asof))

/-- `ensure_predictions_canonical`: delete every row whose `(key, asof)` is not
`(key, max asof over that key)`; i.e. keep exactly the per-key max-asof rows. -/
def ensure_predictions_canonical (rows : List PredictionRecord) : List PredictionRecord :=
  rows.filter (keepRow rows)

/-! ## Frequency inference -/

/-- Sampling cadences returned by `_infer_freq` ("D" / "H"). -/
inductive Freq where
  | D
  | H
  deriving DecidableEq

/-- The step, in seconds, of `pd.tseries.frequencies.to_offset` for "D" / "H". -/
def freqDelta : Freq → ℚ
  | .D => 86400
  | .H => 3600

/-- `pandas.Series.median`: sort ascending, middle element, or the mean of the
two middle elements for an even count. -/
def median (xs : List ℚ) : ℚ :=
  let s := xs.insertionSort (· ≤ ·)
  let n := s.length
  if n % 2 = 1 then s.getD (n / 2) 0
  else (s.getD (n / 2 - 1) 0 + s.getD (n / 2) 0) / 2

/-- `_infer_freq`: median of successive timestamp deltas (in seconds);
[23h, 25h] is daily, [6.5h, 7.5h] is hourly, anything else defaults to daily.
Deltas of rationals are never NaN, so the `pd.isna(median)` guard of the
source is vacuous here. -/
def _infer_freq (ts : List ℚ) : Freq :=
  if ts.length < 2 then .D
  else
    let diffs := List.zipWith (· - ·) (ts.drop 1) ts
    let m := median diffs
    if 23 * 3600 ≤ m ∧ m ≤ 25 * 3600 then .D
    else if (13 : ℚ) / 2 * 3600 ≤ m ∧ m ≤ (15 : ℚ) / 2 * 3600 then .H
    else .D

/-! ## Forecast methods

Doubles are rationals; NaN is `Option.none` where the source can produce one.
`np.sqrt`, `np.exp`, `np.log`, the seeded normal sampler and the external
`statsmodels` ARIMA fitter are oracle parameters in `Env`. -/

/-- The transient forecast value object of the agent. -/
structure ForecastResult where
  future_ts : List ℚ
  yhat : List ℚ
  lower : List ℚ
  upper : List ℚ
  deriving DecidableEq

/-- What `fit.get_forecast(steps)` yields: the point forecast and, when the
returned interval array has shape `(·, ≥ 2)`, its lower/upper columns. -/
structure ArimaForecast where
  predictedMean : List ℚ
  confInt : Option (List (ℚ × ℚ))
  deriving DecidableEq

/-- Oracles for the numeric library routines and the optional ARIMA capability.
`arimaForecast`/`arimaInSample` return `.error` when the external fit raises. -/
structure Env where
  sqrtO : ℚ → ℚ
  expO : ℚ → ℚ
  logO : ℚ → ℚ
  normalO : Nat → ℚ → ℚ → Nat → Nat → ℚ
  hasArima : Bool
  arimaForecast : List ℚ → Nat → Except Unit ArimaForecast
  arimaInSample : List ℚ → Except Unit (List ℚ)

/-- The exceptions the agent can raise. -/
inductive Err where
  | noHistory (symbol : String)
  | indexError
  | arimaFit
  deriving DecidableEq

/-- `np.nanstd(xs, ddof=1)`: sample standard deviation over the non-NaN
entries; NaN (`none`) when fewer than two remain. -/
def nanstd (sqrtO : ℚ → ℚ) (xs : List (Option ℚ)) : Option ℚ :=
  let vals := xs.filterMap id
  if vals.length ≤ 1 then none
  else
    let m := vals.sum / vals.length
    some (sqrtO ((vals.map (fun x => (x - m) ^ 2)).sum / ((vals.length : ℚ) - 1)))

/-- `_compute_resid_scale`: NaN for fewer than two residuals, else
`np.nanstd(y_true - y_pred, ddof=1)`. -/
def _compute_resid_scale (sqrtO : ℚ → ℚ) (yTrue : List ℚ) (yPred : List (Option ℚ)) :
    Option ℚ :=
  let resid := List.zipWith (fun t p => p.map (fun q => t - q)) yTrue yPred
  if resid.length < 2 then none
  else nanstd sqrtO resid

/-- `pandas.Series.shift(1)`: a leading NaN, dropping the final element. -/
def shift1 (xs : List (Option ℚ)) : List (Option ℚ) :=
  match xs with
  | [] => []
  | _ => none :: xs.dropLast

/-- `pandas.Series.rolling(window, min_periods).mean()`: at index `i` the mean
of the non-NaN entries among the last `window` positions up to `i`, provided at
least `min_periods` of them are non-NaN. -/
def rollingMean (window minPeriods : Nat) (xs : List (Option ℚ)) : List (Option ℚ) :=
  (List.range xs.length).map (fun i =>
    let vals := ((xs.take (i + 1)).drop (i + 1 - window)).filterMap id
    if minPeriods ≤ vals.length then some (vals.sum / vals.length) else none)

/-- Specification value for the `sma_7` backtest prediction at position `t`:
the mean of the trailing (up to 7) values ending at position `t − 1`, i.e. of
the slice `y[max(t-7, 0) .. t-1]` — the value being predicted is not used. -/
def windowMean (y : List ℚ) (t : Nat) : ℚ :=
  (((y.take t).drop (t - 7)).sum) / ((((y.take t).drop (t - 7)).length : ℕ) : ℚ)

/-- `_future_index`: `pd.date_range(last_ts + offset, periods=horizon, freq)`,
i.e. `last_ts + δ, last_ts + 2δ, …` with `δ = freqDelta freq` seconds. -/
def _future_index (lastTs : ℚ) (horizon : Nat) (freq : Freq) : List ℚ :=
  (List.range horizon).map (fun i => lastTs + ((i + 1 : ℕ) : ℚ) * freqDelta freq)

/-- `forecast_naive_last`: repeat the final value; band `± 1.96 σ` of the
one-step naive residuals, collapsing when the scale is NaN.  Indexing `y[-1]`
into an empty array raises. -/
def forecast_naive_last (env : Env) (y : List ℚ) (horizon : Nat) (freq : Freq)
    (lastTs : ℚ) : Except Err ForecastResult :=
  match y.getLast? with
  | none => .error .indexError
  | some last =>
    let yhat := List.replicate horizon last
    let s : Option ℚ :=
      if 1 < y.length then
        _compute_resid_scale env.sqrtO (y.drop 1) (y.dropLast.map some)
      else none
    let lower := match s with
      | some sv => yhat.map (fun v => v - 49 / 25 * sv)
      | none => yhat
    let upper := match s with
      | some sv => yhat.map (fun v => v + 49 / 25 * sv)
      | none => yhat
    .ok ⟨_future_index lastTs horizon freq, yhat, lower, upper⟩

/-- `forecast_sma`: repeat the last trailing rolling mean; band from the
residuals of the shift-by-one rolling mean.  With `min_periods=1` and a
NaN-free input every rolling value is defined, so the `getD` default of the
last rolling value is never consulted. -/
def forecast_sma (env : Env) (y : List ℚ) (horizon : Nat) (freq : Freq)
    (lastTs : ℚ) (window : Nat) : Except Err ForecastResult :=
  let sma := rollingMean window 1 (y.map some)
  match sma.getLast? with
  | none => .error .indexError
  | some smaLast =>
    let yhat := List.replicate horizon (smaLast.getD 0)
    let s : Option ℚ :=
      if 1 < y.length then
        _compute_resid_scale env.sqrtO (y.drop 1)
          ((rollingMean window 1 (shift1 (y.map some))).drop 1)
      else none
    let lower := match s with
      | some sv => yhat.map (fun v => v - 49 / 25 * sv)
      | none => yhat
    let upper := match s with
      | some sv => yhat.map (fun v => v + 49 / 25 * sv)
      | none => yhat
    .ok ⟨_future_index lastTs horizon freq, yhat, lower, upper⟩

/-- `np.diff(np.log(pos))`. -/
def logDiffs (env : Env) (pos : List ℚ) : List ℚ :=
  List.zipWith (fun a b => env.logO b - env.logO a) pos (pos.drop 1)

/-- `np.nanpercentile(xs, p)` with the default linear interpolation. -/
def percentile (p : ℚ) (xs : List ℚ) : ℚ :=
  let s := xs.insertionSort (· ≤ ·)
  let rank : ℚ := p / 100 * ((s.length : ℚ) - 1)
  let lo : Nat := (Int.floor rank).toNat
  s.getD lo 0 + (rank - (Int.floor rank : ℚ)) * (s.getD (lo + 1) 0 - s.getD lo 0)

/-- `forecast_gbm_mc`: drift/volatility of the log-returns over the strictly
positive history (`μ = σ = 0` when fewer than two returns), `nSims` simulated
paths of multiplicative `exp(normal(μ − σ²/2, σ))` shocks; point estimate the
per-step path mean, band the 5th/95th path percentiles.  When `2 ≤ r.length`
the `nanstd` of the returns is defined, so its `getD` default is dead. -/
def forecast_gbm_mc (env : Env) (y : List ℚ) (horizon : Nat) (freq : Freq)
    (lastTs : ℚ) (nSims : Nat) (seed : Nat) : Except Err ForecastResult :=
  match y.getLast? with
  | none => .error .indexError
  | some last =>
    let pos := y.filter (fun v => decide (0 < v))
    let r := if 2 ≤ pos.length then logDiffs env pos else []
    let mu := if r.length < 2 then (0 : ℚ) else r.sum / r.length
    let sigma := if r.length < 2 then (0 : ℚ) else (nanstd env.sqrtO (r.map some)).getD 0
    let path := fun (i j : Nat) =>
      last * ((List.range (j + 1)).map
        (fun k => env.expO (env.normalO seed (mu - sigma ^ 2 / 2) sigma i k))).prod
    let col := fun (j : Nat) => (List.range nSims).map (fun i => path i j)
    let yhat := (List.range horizon).map (fun j => (col j).sum / (nSims : ℚ))
    let lower := (List.range horizon).map (fun j => percentile 5 (col j))
    let upper := (List.range horizon).map (fun j => percentile 95 (col j))
    .ok ⟨_future_index lastTs horizon freq, yhat, lower, upper⟩

/-- `forecast_arima`: fall back to `forecast_naive_last` when the capability is
unavailable or the series has fewer than 5 points; otherwise fit and forecast.
There is no `try`/`except` around the fit in the source, so a raising fit
propagates out as `.error .arimaFit`.  A confidence interval not of shape
`(·, ≥ 2)` collapses the band onto the point forecast. -/
def forecast_arima (env : Env) (y : List ℚ) (horizon : Nat) (freq : Freq)
    (lastTs : ℚ) : Except Err ForecastResult :=
  if env.hasArima = false ∨ y.length < 5 then
    forecast_naive_last env y horizon freq lastTs
  else
    match env.arimaForecast y horizon with
    | .error _ => .error .arimaFit
    | .ok fc =>
      let yhat := fc.predictedMean
      let lower := match fc.confInt with
        | some ci => ci.map Prod.fst
        | none => yhat
      let upper := match fc.confInt with
        | some ci => ci.map Prod.snd
        | none => yhat
      .ok ⟨_future_index lastTs horizon freq, yhat, lower, upper⟩

/-! ## Backtest and metrics -/

/-- `_one_step_predictions`: one-step-ahead predictions aligned with `y`, NaN
(`none`) at position 0.  The `arima` arm fits only when the capability is
present and `n ≥ 6`, catches a raising fit, and otherwise falls back to the
naive shift; the in-sample oracle returns the `n − 1` values of
`get_prediction(start=1, end=n-1)`. -/
def _one_step_predictions (env : Env) (y : List ℚ) (method : Method) :
    List (Option ℚ) :=
  match y with
  | [] => []
  | _ :: _ =>
    match method with
    | .naive_last => none :: (y.dropLast.map some)
    | .sma_7 => none :: ((rollingMean 7 1 (shift1 (y.map some))).drop 1)
    | .gbm_mc =>
      let pos := y.filter (fun v => decide (0 < v))
      let r := if 2 ≤ pos.length then logDiffs env pos else []
      let mu := if r.length ≠ 0 then r.sum / r.length else 0
      let g := env.expO mu
      none :: (y.dropLast.map (fun v => some (v * g)))
    | .arima =>
      if env.hasArima = true ∧ 6 ≤ y.length then
        match env.arimaInSample y with
        | .ok pm => none :: (pm.map some)
        | .error _ => none :: (y.dropLast.map some)
      else none :: (y.dropLast.map some)

/-- The RMSE/MAE pair of a run; `none` models the NaN stored for "no defined
prediction to score". -/
structure Metrics where
  rmse : Option ℚ
  mae : Option ℚ
  deriving DecidableEq

/-- `_metrics`: errors over the positions `≥ 1` whose prediction is defined;
both metrics NaN when no such position exists. -/
def _metrics (env : Env) (y : List ℚ) (preds : List (Option ℚ)) : Metrics :=
  let errs := (List.zip (y.drop 1) (preds.drop 1)).filterMap
    (fun tp => tp.2.map (fun q => tp.1 - q))
  if errs.length = 0 then ⟨none, none⟩
  else
    ⟨some (env.sqrtO ((errs.map (fun e => e ^ 2)).sum / (errs.length : ℚ))),
     some ((errs.map (fun e => |e|)).sum / (errs.length : ℚ))⟩

/-! ## Model selection -/

/-- The selection loop of `predict_for_symbol`: starting from
`(best_method, best_value) = (None, inf)`, a NaN value (`none`) fails the
`v == v` test and is skipped, and a defined value wins only when it is
strictly below the running best. -/
def selectGo : List (Method × Option ℚ) → Option (Method × ℚ) → Option (Method × ℚ)
  | [], best => best
  | (m, v) :: rest, best =>
    match v, best with
    | none, _ => selectGo rest best
    | some q, none => selectGo rest (some (m, q))
    | some q, some b => selectGo rest (some (if q < b.2 then (m, q) else b))

/-- The selection outcome over the metric list, in its iteration order. -/
def selectBest (items : List (Method × Option ℚ)) : Option (Method × ℚ) :=
  selectGo items none

/-! ## The store and the drivers -/

/-- A row of the `prices` table. -/
structure PriceRow where
  symbol : String
  ts : ℚ
  price : ℚ
  deriving DecidableEq

/-- The metric names written per method per run. -/
inductive MetricName where
  | RMSE
  | MAE
  deriving DecidableEq

/-- A row of the `metrics` table. -/
structure MetricRow where
  symbol : String
  asof : ℚ
  method : Method
  metric : MetricName
  value : Option ℚ
  deriving DecidableEq

/-- A row of the `model_selection` table. -/
structure SelectionRow where
  symbol : String
  asof : ℚ
  best_method : Method
  metric : MetricName
  value : ℚ
  deriving DecidableEq

/-- The duckdb store: the consumed `prices` table and the three output tables. -/
structure DB where
  prices : List PriceRow
  predictions : List PredictionRecord
  metrics : List MetricRow
  model_selection : List SelectionRow
  deriving DecidableEq

/-- `_last_60`: the symbol's rows ordered by `ts` descending, limited to 60,
then re-sorted ascending. -/
def _last_60 (db : DB) (symbol : String) : List PriceRow :=
  let taken := ((db.prices.filter (fun r => decide (r.symbol = symbol))).insertionSort
    (fun a b => b.ts ≤ a.ts)).take 60
  taken.insertionSort (fun a b => a.ts ≤ b.ts)

/-- The default method set of `predict_for_symbol`. -/
def defaultMethods : List Method := [.naive_last, .sma_7, .gbm_mc, .arima]

/-- The per-method dispatch of the forecast loop, with the literal arguments of
the source call sites (`window=7`, `n_sims=2000`, `seed=42`). -/
def runMethod (env : Env) (y : List ℚ) (horizon : Nat) (freq : Freq) (lastTs : ℚ) :
    Method → Except Err ForecastResult
  | .naive_last => forecast_naive_last env y horizon freq lastTs
  | .sma_7 => forecast_sma env y horizon freq lastTs 7
  | .gbm_mc => forecast_gbm_mc env y horizon freq lastTs 2000 42
  | .arima => forecast_arima env y horizon freq lastTs

/-- The `rows_pred` entries of one method: zip of the forecast columns,
enumerated with `horizon` starting at 1. -/
def predRows (symbol : String) (asof : ℚ) (m : Method) (fr : ForecastResult) :
    List PredictionRecord :=
  let quads := fr.future_ts.zip (fr.yhat.zip (fr.lower.zip fr.upper))
  ((List.range quads.length).zip quads).map (fun iq =>
    { symbol := symbol, ts := iq.2.1, horizon := iq.1 + 1, method := m,
      yhat := iq.2.2.1, yhat_lower := iq.2.2.2.1, yhat_upper := iq.2.2.2.2,
      asof := asof })

/-- The `rows_metrics` entries of one method, in the dict insertion order
RMSE, MAE. -/
def metricRows (symbol : String) (asof : ℚ) (m : Method) (mm : Metrics) :
    List MetricRow :=
  [⟨symbol, asof, m, .RMSE, mm.rmse⟩, ⟨symbol, asof, m, .MAE, mm.mae⟩]

/-- The forecast loop of `predict_for_symbol`: per method, the forward
forecast (whose exceptions abort the whole symbol before anything is written),
the backtest and its metrics; accumulates the three row streams in order. -/
def processMethods (env : Env) (y : List ℚ) (horizon : Nat) (freq : Freq)
    (lastTs : ℚ) (symbol : String) (asof : ℚ) :
    List Method →
      Except Err (List PredictionRecord × List MetricRow × List (Method × Option ℚ))
  | [] => .ok ([], [], [])
  | m :: rest =>
    match runMethod env y horizon freq lastTs m with
    | .error e => .error e
    | .ok fr =>
      let mm := _metrics env y (_one_step_predictions env y m)
      match processMethods env y horizon freq lastTs symbol asof rest with
      | .error e => .error e
      | .ok (rp, rm, sel) =>
        .ok (predRows symbol asof m fr ++ rp,
             metricRows symbol asof m mm ++ rm,
             (m, mm.rmse) :: sel)

/-- `predict_for_symbol`: raise when the symbol has no price history; else run
every method, insert the prediction rows, canonicalize, insert the metric
rows, and insert the selection row when one exists.  `asof` models the
`pd.Timestamp.utcnow()` taken at the start of the call. -/
def predict_for_symbol (env : Env) (asof : ℚ) (db : DB) (symbol : String)
    (horizon : Nat) (methods : Option (List Method)) : Except Err DB :=
  let df := _last_60 db symbol
  if df = [] then .error (.noHistory symbol)
  else
    let y := df.map (fun r => r.price)
    let lastTs := ((df.map (fun r => r.ts)).getLast?).getD 0
    let freq := _infer_freq (df.map (fun r => r.ts))
    match processMethods env y horizon freq lastTs symbol asof
        (methods.getD defaultMethods) with
    | .error e => .error e
    | .ok (rowsPred, rowsMetrics, metricForSelection) =>
      let db1 : DB := { db with predictions := db.predictions ++ rowsPred }
      let db2 : DB := { db1 with predictions := ensure_predictions_canonical db1.predictions }
      let db3 : DB := { db2 with metrics := db2.metrics ++ rowsMetrics }
      match selectBest metricForSelection with
      | some best =>
        .ok { db3 with model_selection :=
                db3.model_selection ++ [⟨symbol, asof, best.1, .RMSE, best.2⟩] }
      | none => .ok db3

/-- `predict_all`: a bare loop over the symbols.  There is no `try`/`except`,
so the first raising symbol aborts the batch; the pair returned is the store
as already committed together with the escaping exception, if any. -/
def predict_all (env : Env) (asof : ℚ) (db : DB) (symbols : List String)
    (horizon : Nat) (methods : Option (List Method)) : DB × Option Err :=
  match symbols with
  | [] => (db, none)
  | s :: rest =>
    match predict_for_symbol env asof db s horizon methods with
    | .ok db2 => predict_all env asof db2 rest horizon methods
    | .error e => (db, some e)

/-- A concrete oracle environment for evaluating the model on closed inputs:
identity square root / exponential / logarithm, a zero normal sampler, the
ARIMA capability present but its fits raising. -/
def testEnv : Env where
  sqrtO := id
  expO := id
  logO := id
  normalO := fun _ _ _ _ _ => 0
  hasArima := true
  arimaForecast := fun _ _ => .error ()
  arimaInSample := fun _ => .error ()

/-- A variant of `testEnv` whose in-sample ARIMA fit succeeds with the
constant value 99. -/
def testEnvOk99 : Env :=
  { testEnv with
      arimaInSample := fun y => .ok (List.replicate (y.length - 1) 99) }

lemma keepRow_iff (rows : List PredictionRecord) (r : PredictionRecord) :
    keepRow rows r = true ↔ ∀ s ∈ rows, key s = key r → s.asof ≤ r.asof := by
  simp [keepRow, List.all_eq_true, imp_iff_not_or]

lemma mem_canonical_iff (rows : List PredictionRecord) (r : PredictionRecord) :
    r ∈ ensure_predictions_canonical rows ↔
      r ∈ rows ∧ ∀ s ∈ rows, key s = key r → s.asof ≤ r.asof := by
  rw [ensure_predictions_canonical, List.mem_filter, keepRow_iff]

/-- A list of length two containing two distinct elements is one of the two
orderings of that pair. -/
lemma eq_pair_of_length_two {α : Type} {l : List α} {a b : α}
    (ha : a ∈ l) (hb : b ∈ l) (hab : a ≠ b) (hl : l.length = 2) :
    l = [a, b] ∨ l = [b, a] := by
  match l, hl with
  | [x, y], _ =>
    rcases List.mem_pair.mp ha with rfl | rfl
    · rcases List.mem_pair.mp hb with rfl | rfl
      · exact absurd rfl hab
      · exact Or.inl rfl
    · rcases List.mem_pair.mp hb with rfl | rfl
      · exact Or.inr rfl
      · exact absurd rfl hab

/-- Two distinct members force length at least two. -/
lemma two_le_length_of_mem {α : Type} {l : List α} {a b : α}
    (ha : a ∈ l) (hb : b ∈ l) (hab : a ≠ b) : 2 ≤ l.length := by
  match l with
  | [] => exact absurd ha (List.not_mem_nil a)
  | [x] =>
    rw [List.mem_singleton] at ha hb
    exact absurd (ha.trans hb.symm) hab
  | x :: y :: t => simp only [List.length_cons]; omega

/-- C2: the canonicalization sweep is idempotent — on any store state, running
it a second time changes nothing; in particular an already-canonical store is
left untouched. -/
theorem canonical_idempotent (rows : List PredictionRecord) :
    ensure_predictions_canonical (ensure_predictions_canonical rows) =
      ensure_predictions_canonical rows := by
  show (ensure_predictions_canonical rows).filter
      (keepRow (ensure_predictions_canonical rows)) = ensure_predictions_canonical rows
  apply List.filter_eq_self.mpr
  intro r hr
  rw [keepRow_iff]
  intro s hs hk
  exact ((mem_canonical_iff rows r).mp hr).2 s ((mem_canonical_iff rows s).mp hs).1 hk

/-- C1: when a store holds exactly two rows for a logical key and their `asof`
differ, the sweep leaves exactly one row for that key — the one with the
larger `asof`. -/
theorem canonical_two_rows (rows : List PredictionRecord) (a b : PredictionRecord)
    (ha : a ∈ rows) (hb : b ∈ rows) (hkey : key a = key b) (hlt : a.asof < b.asof)
    (hcount : (rows.filter (fun r => decide (key r = key a))).length = 2) :
    (ensure_predictions_canonical rows).filter (fun r => decide (key r = key a)) = [b] := by
  have hne : a ≠ b := by
    intro h
    rw [h] at hlt
    exact lt_irrefl _ hlt
  have haF : a ∈ rows.filter (fun r => decide (key r = key a)) :=
    List.mem_filter.mpr ⟨ha, by simp⟩
  have hbF : b ∈ rows.filter (fun r => decide (key r = key a)) :=
    List.mem_filter.mpr ⟨hb, by simp [hkey.symm]⟩
  have hpair := eq_pair_of_length_two haF hbF hne hcount
  have hkeepb : keepRow rows b = true := by
    rw [keepRow_iff]
    intro s hs hks
    have hsF : s ∈ rows.filter (fun r => decide (key r = key a)) :=
      List.mem_filter.mpr ⟨hs, by simp [hks.trans hkey.symm]⟩
    rcases hpair with h2 | h2 <;> rw [h2] at hsF <;>
      rcases List.mem_pair.mp hsF with rfl | rfl
    · exact hlt.le
    · exact le_refl _
    · exact le_refl _
    · exact hlt.le
  have hkeepa : keepRow rows a = false := by
    apply eq_false_of_ne_true
    intro h
    exact absurd ((keepRow_iff rows a).mp h b hb hkey.symm) (not_le.mpr hlt)
  have hsplit : (ensure_predictions_canonical rows).filter
      (fun r => decide (key r = key a)) =
      (rows.filter (fun r => decide (key r = key a))).filter (keepRow rows) := by
    show ((rows.filter (keepRow rows)).filter (fun r => decide (key r = key a))) = _
    rw [List.filter_filter, List.filter_filter]
    apply List.filter_congr
    intro r _
    exact Bool.and_comm _ _
  rw [hsplit]
  rcases hpair with h2 | h2 <;> rw [h2] <;>
    simp [List.filter_cons, hkeepa, hkeepb]

/-- Witness for C1 at a concrete two-row store. -/
theorem canonical_two_rows_witness :
    (ensure_predictions_canonical
        [⟨"X", 1, 1, Method.naive_last, 0, 0, 0, 10⟩,
         ⟨"X", 1, 1, Method.naive_last, 5, 0, 0, 20⟩]).filter
        (fun r => decide (key r = key ⟨"X", 1, 1, Method.naive_last, 0, 0, 0, 10⟩)) =
      [⟨"X", 1, 1, Method.naive_last, 5, 0, 0, 20⟩] :=
  canonical_two_rows _ _ _ (by decide) (by decide) (by decide) (by decide) (by decide)

/-- C10: every row whose `asof` attains the per-key maximum survives the
sweep; with two distinct max-`asof` rows for one key, at least two rows for
that key remain after canonicalization. -/
theorem canonical_keeps_ties (rows : List PredictionRecord) (a b : PredictionRecord)
    (ha : a ∈ rows) (hb : b ∈ rows) (hne : a ≠ b) (hkey : key a = key b)
    (heq : a.asof = b.asof)
    (hmax : ∀ r ∈ rows, key r = key a → r.asof ≤ a.asof) :
    a ∈ ensure_predictions_canonical rows ∧ b ∈ ensure_predictions_canonical rows ∧
      2 ≤ (ensure_predictions_canonical rows).countP (fun r => decide (key r = key a)) := by
  have hma : a ∈ ensure_predictions_canonical rows :=
    (mem_canonical_iff rows a).mpr ⟨ha, fun s hs hk => hmax s hs hk⟩
  have hmb : b ∈ ensure_predictions_canonical rows :=
    (mem_canonical_iff rows b).mpr
      ⟨hb, fun s hs hk => (hmax s hs (hk.trans hkey.symm)).trans heq.le⟩
  refine ⟨hma, hmb, ?_⟩
  rw [List.countP_eq_length_filter]
  exact two_le_length_of_mem (List.mem_filter.mpr ⟨hma, by simp⟩)
    (List.mem_filter.mpr ⟨hmb, by simp [hkey.symm]⟩) hne

/-- Witness for C10: two rows with the same key and the same maximal `asof`
both survive. -/
theorem canonical_keeps_ties_witness :
    (⟨"X", 1, 1, Method.naive_last, 0, 0, 0, 20⟩ : PredictionRecord) ∈
        ensure_predictions_canonical
          [⟨"X", 1, 1, Method.naive_last, 0, 0, 0, 20⟩,
           ⟨"X", 1, 1, Method.naive_last, 5, 0, 0, 20⟩] ∧
      (⟨"X", 1, 1, Method.naive_last, 5, 0, 0, 20⟩ : PredictionRecord) ∈
        ensure_predictions_canonical
          [⟨"X", 1, 1, Method.naive_last, 0, 0, 0, 20⟩,
           ⟨"X", 1, 1, Method.naive_last, 5, 0, 0, 20⟩] ∧
      2 ≤ (ensure_predictions_canonical
          [⟨"X", 1, 1, Method.naive_last, 0, 0, 0, 20⟩,
           ⟨"X", 1, 1, Method.naive_last, 5, 0, 0, 20⟩]).countP
          (fun r => decide (key r = key ⟨"X", 1, 1, Method.naive_last, 0, 0, 0, 20⟩)) :=
  canonical_keeps_ties _ _ _ (by decide) (by decide) (by decide) (by decide)
    (by decide) (by decide)

/-! ## Model selector -/

lemma selectGo_eq_none_iff :
    ∀ (items : List (Method × Option ℚ)) (best : Option (Method × ℚ)),
      selectGo items best = none ↔ best = none ∧ ∀ p ∈ items, p.2 = none := by
  intro items
  induction items with
  | nil => intro best; simp [selectGo]
  | cons hd tl ih =>
    intro best
    obtain ⟨m, v⟩ := hd
    cases v with
    | none =>
      cases best with
      | none => simp [selectGo, ih]
      | some b => simp [selectGo, ih]
    | some q =>
      cases best with
      | none => simp [selectGo, ih]
      | some b => simp [selectGo, ih]

/-- Where the selection loop's winner sits: either the initial accumulator
survives (nothing later strictly beats it), or the winner is an item that
strictly beats the accumulator and everything before it, while nothing after
it strictly beats the winner. -/
lemma selectGo_spec :
    ∀ (items : List (Method × Option ℚ)) (best : Option (Method × ℚ)) (m : Method) (v : ℚ),
      selectGo items best = some (m, v) →
        (best = some (m, v) ∧ ∀ p ∈ items, ∀ q, p.2 = some q → ¬(q < v))
        ∨ (∃ l₁ l₂, items = l₁ ++ (m, some v) :: l₂
            ∧ (∀ b, best = some b → v < b.2)
            ∧ (∀ p ∈ l₁, ∀ q, p.2 = some q → v < q)
            ∧ (∀ p ∈ l₂, ∀ q, p.2 = some q → ¬(q < v))) := by
  intro items
  induction items with
  | nil =>
    intro best m v h
    exact Or.inl ⟨h, by simp⟩
  | cons hd tl ih =>
    intro best m v h
    obtain ⟨m', v'⟩ := hd
    cases v' with
    | none =>
      have h' : selectGo tl best = some (m, v) := h
      rcases ih best m v h' with ⟨hb, hrest⟩ | ⟨l₁, l₂, heq, hbv, hl₁, hl₂⟩
      · refine Or.inl ⟨hb, ?_⟩
        intro p hp q hq
        rcases List.mem_cons.mp hp with rfl | hp'
        · exact absurd hq (by simp)
        · exact hrest p hp' q hq
      · refine Or.inr ⟨(m', none) :: l₁, l₂, by rw [heq]; rfl, hbv, ?_, hl₂⟩
        intro p hp q hq
        rcases List.mem_cons.mp hp with rfl | hp'
        · exact absurd hq (by simp)
        · exact hl₁ p hp' q hq
    | some q' =>
      cases best with
      | none =>
        have h' : selectGo tl (some (m', q')) = some (m, v) := h
        rcases ih (some (m', q')) m v h' with ⟨hb, hrest⟩ | ⟨l₁, l₂, heq, hbv, hl₁, hl₂⟩
        · have hmq : m' = m ∧ q' = v := by
            simpa using hb
          obtain ⟨rfl, rfl⟩ := hmq
          refine Or.inr ⟨[], tl, rfl, ?_, by simp, hrest⟩
          intro b hb'
          exact absurd hb' (by simp)
        · have hvq : v < q' := hbv (m', q') rfl
          refine Or.inr ⟨(m', some q') :: l₁, l₂, by rw [heq]; rfl, ?_, ?_, hl₂⟩
          · intro b hb'
            exact absurd hb' (by simp)
          · intro p hp q hq
            rcases List.mem_cons.mp hp with rfl | hp'
            · have : q = q' := by simpa using hq.symm
              rw [this]; exact hvq
            · exact hl₁ p hp' q hq
      | some b =>
        by_cases hc : q' < b.2
        · have h' : selectGo tl (some (m', q')) = some (m, v) := by
            have : selectGo ((m', some q') :: tl) (some b) =
                selectGo tl (some (if q' < b.2 then (m', q') else b)) := rfl
            rw [this, if_pos hc] at h
            exact h
          rcases ih (some (m', q')) m v h' with ⟨hb, hrest⟩ | ⟨l₁, l₂, heq, hbv, hl₁, hl₂⟩
          · have hmq : m' = m ∧ q' = v := by simpa using hb
            obtain ⟨rfl, rfl⟩ := hmq
            refine Or.inr ⟨[], tl, rfl, ?_, by simp, hrest⟩
            intro b' hb'
            have : b = b' := by simpa using hb'
            rw [← this]; exact hc
          · have hvq : v < q' := hbv (m', q') rfl
            refine Or.inr ⟨(m', some q') :: l₁, l₂, by rw [heq]; rfl, ?_, ?_, hl₂⟩
            · intro b' hb'
              have : b = b' := by simpa using hb'
              rw [← this]; exact hvq.trans hc
            · intro p hp q hq
              rcases List.mem_cons.mp hp with rfl | hp'
              · have : q = q' := by simpa using hq.symm
                rw [this]; exact hvq
              · exact hl₁ p hp' q hq
        · have h' : selectGo tl (some b) = some (m, v) := by
            have : selectGo ((m', some q') :: tl) (some b) =
                selectGo tl (some (if q' < b.2 then (m', q') else b)) := rfl
            rw [this, if_neg hc] at h
            exact h
          rcases ih (some b) m v h' with ⟨hb, hrest⟩ | ⟨l₁, l₂, heq, hbv, hl₁, hl₂⟩
          · refine Or.inl ⟨hb, ?_⟩
            intro p hp q hq
            rcases List.mem_cons.mp hp with rfl | hp'
            · have hq' : q = q' := by simpa using hq.symm
              have hvb : b = (m, v) := by simpa using hb
              rw [hq']
              rw [hvb] at hc
              exact hc
            · exact hrest p hp' q hq
          · have hvb : v < b.2 := hbv b rfl
            refine Or.inr ⟨(m', some q') :: l₁, l₂, by rw [heq]; rfl, ?_, ?_, hl₂⟩
            · intro b' hb'
              have : b = b' := by simpa using hb'
              rw [← this]; exact hvb
            · intro p hp q hq
              rcases List.mem_cons.mp hp with rfl | hp'
              · have : q = q' := by simpa using hq.symm
                rw [this]; exact hvb.trans_le (le_of_not_lt hc)
              · exact hl₁ p hp' q hq

/-- C5: the selection loop of `predict_for_symbol` returns no selection iff
every RMSE is NaN; otherwise it returns a method whose RMSE is the numerically
smallest defined value, and the first such entry in the iteration order of the
metric list (which `predict_for_symbol` builds in the fixed method ordering
naive_last, sma_7, gbm_mc, arima).  On the spec's example
\x7bnaive_last: 5.0, sma_7: 3.2, arima: NaN\x7d it selects sma_7 with 3.2. -/
theorem model_selector_spec :
    (∀ items : List (Method × Option ℚ),
        (selectBest items = none ↔ ∀ p ∈ items, p.2 = none)) ∧
    (∀ (items : List (Method × Option ℚ)) (m : Method) (v : ℚ),
        selectBest items = some (m, v) →
          ∃ l₁ l₂, items = l₁ ++ (m, some v) :: l₂
            ∧ (∀ p ∈ l₁, ∀ q, p.2 = some q → v < q)
            ∧ (∀ p ∈ items, ∀ q, p.2 = some q → v ≤ q)) ∧
    selectBest [(Method.naive_last, some 5), (Method.sma_7, some (16 / 5)),
        (Method.arima, none)] = some (Method.sma_7, 16 / 5) := by
  refine ⟨?_, ?_, by norm_num [selectBest, selectGo]⟩
  · intro items
    have := selectGo_eq_none_iff items none
    simpa [selectBest] using this
  · intro items m v h
    rcases selectGo_spec items none m v h with ⟨hb, _⟩ | ⟨l₁, l₂, heq, _, hl₁, hl₂⟩
    · exact absurd hb (by simp)
    · refine ⟨l₁, l₂, heq, hl₁, ?_⟩
      intro p hp q hq
      rw [heq] at hp
      rcases List.mem_append.mp hp with hp₁ | hp₂
      · exact (hl₁ p hp₁ q hq).le
      · rcases List.mem_cons.mp hp₂ with rfl | hp₃
        · have : q = v := by simpa using hq.symm
          rw [this]
        · exact le_of_not_lt (hl₂ p hp₃ q hq)

/-- Witness for C5: on the spec's example list the winner sma_7/3.2 is located
by the theorem as the first entry attaining the minimal defined RMSE. -/
theorem model_selector_spec_witness :
    ∃ l₁ l₂,
      [(Method.naive_last, some 5), (Method.sma_7, some (16 / 5)),
        (Method.arima, (none : Option ℚ))] = l₁ ++ (Method.sma_7, some (16 / 5)) :: l₂
      ∧ (∀ p ∈ l₁, ∀ q, p.2 = some q → 16 / 5 < q)
      ∧ (∀ p ∈ [(Method.naive_last, some 5), (Method.sma_7, some (16 / 5)),
            (Method.arima, (none : Option ℚ))], ∀ q, p.2 = some q → 16 / 5 ≤ q) :=
  model_selector_spec.2.1 _ Method.sma_7 (16 / 5) (by norm_num [selectBest, selectGo])

/-! ## Future index -/

lemma freqDelta_pos (f : Freq) : 0 < freqDelta f := by
  cases f <;> norm_num [freqDelta]

lemma future_index_length (lastTs : ℚ) (h : Nat) (freq : Freq) :
    (_future_index lastTs h freq).length = h := by
  simp [_future_index]

lemma future_index_pairwise (lastTs : ℚ) (h : Nat) (freq : Freq) :
    List.Pairwise (· < ·) (_future_index lastTs h freq) := by
  unfold _future_index
  rw [List.pairwise_map]
  refine (List.pairwise_lt_range h).imp ?_
  intro a b hab
  have hd := freqDelta_pos freq
  have hcast : ((a + 1 : ℕ) : ℚ) < ((b + 1 : ℕ) : ℚ) := by
    exact_mod_cast Nat.succ_lt_succ hab
  have := mul_lt_mul_of_pos_right hcast hd
  linarith

lemma future_index_gt (lastTs : ℚ) (h : Nat) (freq : Freq) :
    ∀ t ∈ _future_index lastTs h freq, lastTs < t := by
  intro t ht
  simp only [_future_index, List.mem_map, List.mem_range] at ht
  obtain ⟨i, _, rfl⟩ := ht
  have hd := freqDelta_pos freq
  have hi : (0 : ℚ) < ((i + 1 : ℕ) : ℚ) * freqDelta freq := by
    apply mul_pos _ hd
    exact_mod_cast Nat.succ_pos i
  linarith

lemma naive_ok_future (env : Env) (y : List ℚ) (h : Nat) (freq : Freq)
    (lastTs : ℚ) (r : ForecastResult)
    (hok : forecast_naive_last env y h freq lastTs = .ok r) :
    r.future_ts = _future_index lastTs h freq := by
  cases hy : y.getLast? with
  | none => simp [forecast_naive_last, hy] at hok
  | some last =>
    simp only [forecast_naive_last, hy, Except.ok.injEq] at hok
    rw [← hok]

lemma sma_ok_future (env : Env) (y : List ℚ) (h : Nat) (freq : Freq)
    (lastTs : ℚ) (w : Nat) (r : ForecastResult)
    (hok : forecast_sma env y h freq lastTs w = .ok r) :
    r.future_ts = _future_index lastTs h freq := by
  cases hy : (rollingMean w 1 (y.map some)).getLast? with
  | none => simp [forecast_sma, hy] at hok
  | some v =>
    simp only [forecast_sma, hy, Except.ok.injEq] at hok
    rw [← hok]

lemma gbm_ok_future (env : Env) (y : List ℚ) (h : Nat) (freq : Freq)
    (lastTs : ℚ) (nSims seed : Nat) (r : ForecastResult)
    (hok : forecast_gbm_mc env y h freq lastTs nSims seed = .ok r) :
    r.future_ts = _future_index lastTs h freq := by
  cases hy : y.getLast? with
  | none => simp [forecast_gbm_mc, hy] at hok
  | some last =>
    simp only [forecast_gbm_mc, hy, Except.ok.injEq] at hok
    rw [← hok]

lemma arima_ok_future (env : Env) (y : List ℚ) (h : Nat) (freq : Freq)
    (lastTs : ℚ) (r : ForecastResult)
    (hok : forecast_arima env y h freq lastTs = .ok r) :
    r.future_ts = _future_index lastTs h freq := by
  by_cases hc : env.hasArima = false ∨ y.length < 5
  · rw [forecast_arima, if_pos hc] at hok
    exact naive_ok_future env y h freq lastTs r hok
  · rw [forecast_arima, if_neg hc] at hok
    cases hfc : env.arimaForecast y h with
    | error e => rw [hfc] at hok; simp at hok
    | ok fc =>
      rw [hfc] at hok
      simp only [Except.ok.injEq] at hok
      rw [← hok]

/-- C9: whatever forecast a method returns, its future-timestamp list has
length exactly `horizon`, is strictly increasing, and every entry — the first
in particular — lies strictly after the last observed timestamp. -/
theorem future_timestamps_spec (env : Env) (m : Method) (y : List ℚ)
    (h : Nat) (freq : Freq) (lastTs : ℚ) (r : ForecastResult)
    (_hh : 0 < h) (_hy : y ≠ [])
    (hok : runMethod env y h freq lastTs m = .ok r) :
    r.future_ts.length = h ∧ List.Pairwise (· < ·) r.future_ts ∧
      ∀ t ∈ r.future_ts, lastTs < t := by
  have hfut : r.future_ts = _future_index lastTs h freq := by
    cases m
    · exact naive_ok_future env y h freq lastTs r hok
    · exact sma_ok_future env y h freq lastTs 7 r hok
    · exact gbm_ok_future env y h freq lastTs 2000 42 r hok
    · exact arima_ok_future env y h freq lastTs r hok
  rw [hfut]
  exact ⟨future_index_length lastTs h freq, future_index_pairwise lastTs h freq,
    future_index_gt lastTs h freq⟩

/-- Witness for C9: the naive forecast of the one-point series `[1]` at
horizon 2 and daily frequency. -/
theorem future_timestamps_spec_witness :
    (⟨[86400, 172800], [1, 1], [1, 1], [1, 1]⟩ : ForecastResult).future_ts.length = 2 ∧
      List.Pairwise (· < ·)
        (⟨[86400, 172800], [1, 1], [1, 1], [1, 1]⟩ : ForecastResult).future_ts ∧
      ∀ t ∈ (⟨[86400, 172800], [1, 1], [1, 1], [1, 1]⟩ : ForecastResult).future_ts,
        (0 : ℚ) < t :=
  future_timestamps_spec testEnv Method.naive_last [1] 2 Freq.D 0 _ (by norm_num)
    (by simp)
    (by norm_num [runMethod, forecast_naive_last, _future_index, freqDelta,
      List.range_succ, List.replicate])

/-- C7: with fewer than 5 observations the ARIMA forecast is, for every
horizon, frequency, oracle environment and last timestamp, the very output of
the naive-last forecast: same future timestamps, same point estimates, same
bounds. -/
theorem arima_short_series_fallback (env : Env) (y : List ℚ) (h : Nat)
    (freq : Freq) (lastTs : ℚ) (hlen : y.length < 5) :
    forecast_arima env y h freq lastTs = forecast_naive_last env y h freq lastTs := by
  rw [forecast_arima, if_pos (Or.inr hlen)]

/-- Witness for C7 on a three-point series. -/
theorem arima_short_series_fallback_witness :
    forecast_arima testEnv [1, 2, 3] 2 Freq.D 0 =
      forecast_naive_last testEnv [1, 2, 3] 2 Freq.D 0 :=
  arima_short_series_fallback testEnv [1, 2, 3] 2 Freq.D 0 (by norm_num)

/-! ## ARIMA forward-forecast error propagation (there is no catch) -/

/-- Counterexample to C4: with the capability present and a fit that raises,
the five-point series makes `forecast_arima` return the escaping exception —
not the naive-last output the claim promises. -/
theorem arima_fit_error_cex :
    forecast_arima testEnv [1, 2, 3, 4, 5] 3 Freq.D 0 = .error .arimaFit ∧
    forecast_arima testEnv [1, 2, 3, 4, 5] 3 Freq.D 0 ≠
      forecast_naive_last testEnv [1, 2, 3, 4, 5] 3 Freq.D 0 := by
  have h1 : forecast_arima testEnv [1, 2, 3, 4, 5] 3 Freq.D 0 = .error .arimaFit := by
    rw [forecast_arima, if_neg (by simp [testEnv])]
    rfl
  refine ⟨h1, ?_⟩
  obtain ⟨r, hr⟩ : ∃ r, forecast_naive_last testEnv [1, 2, 3, 4, 5] 3 Freq.D 0 = .ok r :=
    ⟨_, rfl⟩
  rw [h1, hr]
  simp

/-- C4 amended: `forecast_arima` falls back to the naive-last output exactly
when the capability is unavailable or the series has fewer than 5 points; when
the capability is present and the series is long enough, an exception raised
during fitting propagates out of the call instead of degrading to NaiveLast. -/
theorem arima_fallback_cases (env : Env) (y : List ℚ) (h : Nat) (freq : Freq)
    (lastTs : ℚ) :
    (env.hasArima = false ∨ y.length < 5 →
      forecast_arima env y h freq lastTs = forecast_naive_last env y h freq lastTs) ∧
    (env.hasArima = true → 5 ≤ y.length →
      ∀ e, env.arimaForecast y h = .error e →
        forecast_arima env y h freq lastTs = Except.error Err.arimaFit) := by
  constructor
  · intro hc
    rw [forecast_arima, if_pos hc]
  · intro hA hlen e hfit
    have hc : ¬(env.hasArima = false ∨ y.length < 5) := by
      rintro (hf | hl)
      · rw [hA] at hf; cases hf
      · omega
    rw [forecast_arima, if_neg hc, hfit]

/-- Witness for the amended C4: both branches at concrete inputs. -/
theorem arima_fallback_cases_witness :
    forecast_arima testEnv [1, 2, 3] 2 Freq.D 0 =
        forecast_naive_last testEnv [1, 2, 3] 2 Freq.D 0 ∧
      forecast_arima testEnv [1, 2, 3, 4, 5] 3 Freq.D 0 = Except.error Err.arimaFit :=
  ⟨(arima_fallback_cases testEnv [1, 2, 3] 2 Freq.D 0).1 (Or.inr (by norm_num)),
   (arima_fallback_cases testEnv [1, 2, 3, 4, 5] 3 Freq.D 0).2 rfl (by norm_num) () rfl⟩

/-! ## Backtest ARIMA arm -/

/-- Counterexample to C6: on a five-point series the capability is present and
the in-sample fit would succeed (with constant 99), yet the backtester uses
the `value[t−1]` fallback because `n < 6` — a fallback trigger the claim does
not admit. -/
theorem backtest_arima_short_cex :
    _one_step_predictions testEnvOk99 [1, 2, 3, 4, 5] Method.arima =
      [none, some 1, some 2, some 3, some 4] ∧
    _one_step_predictions testEnvOk99 [1, 2, 3, 4, 5] Method.arima ≠
      none :: (List.replicate 4 (99 : ℚ)).map some := by
  constructor
  · rfl
  · intro hcontra
    rw [show _one_step_predictions testEnvOk99 [1, 2, 3, 4, 5] Method.arima =
      [none, some 1, some 2, some 3, some 4] from rfl] at hcontra
    simp [List.replicate] at hcontra

/-- C6 amended: the backtester's arima arm uses the fitted model's in-sample
one-step predictions for positions `[1, n−1]` only when the capability is
present and `n ≥ 6`; it falls back to `value[t−1]` for all positions when the
capability is absent, when `n < 6`, or when fitting raises. -/
theorem backtest_arima_cases (env : Env) (y : List ℚ) (hy : y ≠ []) :
    (∀ pm, env.hasArima = true → 6 ≤ y.length → env.arimaInSample y = .ok pm →
      _one_step_predictions env y Method.arima = none :: pm.map some) ∧
    (env.hasArima = false ∨ y.length < 6 →
      _one_step_predictions env y Method.arima = none :: y.dropLast.map some) ∧
    (∀ e, env.hasArima = true → 6 ≤ y.length → env.arimaInSample y = .error e →
      _one_step_predictions env y Method.arima = none :: y.dropLast.map some) := by
  cases y with
  | nil => exact absurd rfl hy
  | cons a l =>
    refine ⟨?_, ?_, ?_⟩
    · intro pm hA hlen hok
      simp only [_one_step_predictions]
      rw [if_pos ⟨hA, hlen⟩, hok]
    · intro hc
      have hnc : ¬(env.hasArima = true ∧ 6 ≤ (a :: l).length) := by
        rintro ⟨h1, h2⟩
        rcases hc with hf | hl
        · rw [h1] at hf; cases hf
        · omega
      simp only [_one_step_predictions]
      rw [if_neg hnc]
    · intro e hA hlen herr
      simp only [_one_step_predictions]
      rw [if_pos ⟨hA, hlen⟩, herr]

/-- Witness for the amended C6: all three branches at concrete inputs. -/
theorem backtest_arima_cases_witness :
    _one_step_predictions testEnvOk99 [1, 2, 3, 4, 5, 6] Method.arima =
        none :: (List.replicate 5 (99 : ℚ)).map some ∧
      _one_step_predictions testEnv [1, 2, 3, 4, 5] Method.arima =
        none :: ([1, 2, 3, 4, 5] : List ℚ).dropLast.map some ∧
      _one_step_predictions testEnv [1, 2, 3, 4, 5, 6] Method.arima =
        none :: ([1, 2, 3, 4, 5, 6] : List ℚ).dropLast.map some :=
  ⟨(backtest_arima_cases testEnvOk99 _ (by simp)).1 _ rfl (by norm_num) rfl,
   (backtest_arima_cases testEnv _ (by simp)).2.1 (Or.inr (by norm_num)),
   (backtest_arima_cases testEnv _ (by simp)).2.2 () rfl (by norm_num) rfl⟩

/-! ## SMA backtest: the shift-by-one check -/

lemma filterMap_id_map_some : ∀ (l : List ℚ), (l.map some).filterMap id = l := by
  intro l
  induction l with
  | nil => rfl
  | cons x xs ih => simp [ih]

lemma rollingMean_getElem (w minp : Nat) (xs : List (Option ℚ)) (i : Nat)
    (hi : i < xs.length) :
    (rollingMean w minp xs)[i]? =
      some (if minp ≤ (((xs.take (i + 1)).drop (i + 1 - w)).filterMap id).length
        then some ((((xs.take (i + 1)).drop (i + 1 - w)).filterMap id).sum /
          ((((xs.take (i + 1)).drop (i + 1 - w)).filterMap id).length : ℚ))
        else none) := by
  unfold rollingMean
  rw [List.getElem?_map, List.getElem?_range hi]
  rfl

/-- C8: the `sma_7` backtest one-step prediction at any position `1 ≤ t < n`
is the mean of the trailing (up to 7) values ending at `t − 1` — it never uses
the value being predicted.  Concretely, for `[1,…,8]` the prediction at index
7 is 4, the mean of indices 0..6, not the mean 4.5 of indices 1..7. -/
theorem sma_backtest_no_leakage :
    (∀ (env : Env) (y : List ℚ) (t : Nat), 1 ≤ t → t < y.length →
      (_one_step_predictions env y Method.sma_7)[t]? = some (some (windowMean y t))) ∧
    (_one_step_predictions testEnv [1, 2, 3, 4, 5, 6, 7, 8] Method.sma_7)[7]? =
      some (some 4) ∧
    (4 : ℚ) = ([1, 2, 3, 4, 5, 6, 7] : List ℚ).sum / 7 ∧
    (4 : ℚ) ≠ ([2, 3, 4, 5, 6, 7, 8] : List ℚ).sum / 7 := by
  have general : ∀ (env : Env) (y : List ℚ) (t : Nat), 1 ≤ t → t < y.length →
      (_one_step_predictions env y Method.sma_7)[t]? = some (some (windowMean y t)) := by
    intro env y t ht1 htn
    cases y with
    | nil => exact absurd htn (by simp)
    | cons a l =>
      obtain ⟨u, rfl⟩ : ∃ u, t = u + 1 := ⟨t - 1, by omega⟩
      have hstep : _one_step_predictions env (a :: l) Method.sma_7 =
          none :: ((rollingMean 7 1 (shift1 ((a :: l).map some))).drop 1) := rfl
      rw [hstep, List.getElem?_cons_succ, List.getElem?_drop, Nat.add_comm 1 u]
      have hslen : (shift1 ((a :: l).map some)).length = (a :: l).length := by
        simp [shift1]
      have hlt : u + 1 < (shift1 ((a :: l).map some)).length := by
        rw [hslen]; exact htn
      rw [rollingMean_getElem 7 1 _ (u + 1) hlt]
      have htake : (shift1 ((a :: l).map some)).take (u + 1 + 1) =
          none :: ((a :: l).take (u + 1)).map some := by
        show (none :: ((a :: l).map some).dropLast).take (u + 2) = _
        rw [List.take_succ_cons]
        congr 1
        rw [← List.map_dropLast, ← List.map_take]
        congr 1
        rw [List.dropLast_eq_take, List.take_take]
        congr 1
        have hlen : (a :: l).length = l.length + 1 := rfl
        omega
      have hvals : (((shift1 ((a :: l).map some)).take (u + 1 + 1)).drop
            (u + 1 + 1 - 7)).filterMap id =
          ((a :: l).take (u + 1)).drop (u + 1 - 7) := by
        rw [htake]
        by_cases hw : u + 1 + 1 ≤ 7
        · have h0 : u + 1 + 1 - 7 = 0 := by omega
          have h0' : u + 1 - 7 = 0 := by omega
          rw [h0, h0', List.drop_zero, List.drop_zero]
          have hskip : (none :: (((a :: l).take (u + 1)).map some)).filterMap id =
              ((((a :: l).take (u + 1)).map some)).filterMap id := rfl
          rw [hskip, filterMap_id_map_some]
        · have hk : u + 1 + 1 - 7 = (u + 1 - 7) + 1 := by omega
          rw [hk, List.drop_succ_cons, ← List.map_drop, filterMap_id_map_some]
      rw [hvals]
      have hlen1 : 1 ≤ (((a :: l).take (u + 1)).drop (u + 1 - 7)).length := by
        rw [List.length_drop, List.length_take]
        have hmin : min (u + 1) (a :: l).length = u + 1 := min_eq_left (le_of_lt htn)
        omega
      rw [if_pos hlen1]
      rfl
  refine ⟨general, ?_, by norm_num, by norm_num⟩
  rw [general testEnv [1, 2, 3, 4, 5, 6, 7, 8] 7 (by norm_num) (by norm_num)]
  norm_num [windowMean, List.take_succ_cons]

/-- Witness for C8 on the spec's series `[1,…,8]` at index 7. -/
theorem sma_backtest_no_leakage_witness :
    (_one_step_predictions testEnv [1, 2, 3, 4, 5, 6, 7, 8] Method.sma_7)[7]? =
      some (some (windowMean [1, 2, 3, 4, 5, 6, 7, 8] 7)) :=
  sma_backtest_no_leakage.1 testEnv [1, 2, 3, 4, 5, 6, 7, 8] 7 (by norm_num) (by norm_num)

/-! ## Batch behaviour on a symbol without history -/

/-- Counterexample to C3: with symbols `["A", "B"]` where only "B" has
history, `predict_all` lets the "A" exception escape and never reaches "B" —
the store comes back unchanged, with no prediction rows at all, instead of the
claim's "batch continues with the remaining symbols". -/
theorem predict_all_aborts_cex :
    predict_all testEnv 1000 ⟨[⟨"B", 0, 100⟩], [], [], []⟩ ["A", "B"] 5
        (some [Method.naive_last]) =
      (⟨[⟨"B", 0, 100⟩], [], [], []⟩, some (Err.noHistory "A")) ∧
    (predict_all testEnv 1000 ⟨[⟨"B", 0, 100⟩], [], [], []⟩ ["A", "B"] 5
        (some [Method.naive_last])).1.predictions = [] := by
  exact ⟨rfl, rfl⟩

/-- C3 amended: a symbol with no price history raises, and the error escapes
before any insert, so nothing is committed for that symbol; `predict_all` has
no handler, so the batch aborts at the failing symbol and the remaining
symbols are not processed (commits of earlier symbols persist). -/
theorem predict_all_no_history (env : Env) (asof : ℚ) (db : DB) (h : Nat)
    (ms : Option (List Method)) (s : String) (rest : List String)
    (hs : db.prices.filter (fun r => decide (r.symbol = s)) = []) :
    predict_for_symbol env asof db s h ms = .error (.noHistory s) ∧
    predict_all env asof db (s :: rest) h ms = (db, some (.noHistory s)) := by
  have hdf : _last_60 db s = [] := by
    unfold _last_60
    rw [hs]
    rfl
  have h1 : predict_for_symbol env asof db s h ms = .error (.noHistory s) := by
    simp [predict_for_symbol, hdf]
  exact ⟨h1, by simp only [predict_all, h1]⟩

/-- Witness for the amended C3 at the concrete two-symbol batch. -/
theorem predict_all_no_history_witness :
    predict_for_symbol testEnv 1000 ⟨[⟨"B", 0, 100⟩], [], [], []⟩ "A" 5
        (some [Method.naive_last]) = .error (.noHistory "A") ∧
      predict_all testEnv 1000 ⟨[⟨"B", 0, 100⟩], [], [], []⟩ ["A", "B"] 5
        (some [Method.naive_last]) =
        (⟨[⟨"B", 0, 100⟩], [], [], []⟩, some (Err.noHistory "A")) :=
  predict_all_no_history testEnv 1000 ⟨[⟨"B", 0, 100⟩], [], [], []⟩ 5
    (some [Method.naive_last]) "A" ["B"] rfl

end Kolmo
